import Mathlib

/-!
Verification development for the evil-merge detectors: a shallow embedding of
the two classifiers (the tree-based file-level detector and the diff-based
hunk-level detector) together with proofs of their stated properties.

External collaborators (the version-control queries and the line-based diff
routine) are modelled as function parameters; everything with design content
(tree lookup, changed-path computation, the two suspect cases, unified-diff
splitting, hunk-set differencing, interdiff assembly and the suspicious-line
scan) is translated directly from the source.
-/

namespace EvilTree

/-- The null sha1 used by convention to represent nonexistent files
(the source's `nonexistent = '0'*40`). -/
def nonexistent : String := String.mk (List.replicate 40 '0')

/-- A tree listing as produced by `git ls-tree -r`: one `(filename, sha)` pair
per entry (the mode column is never consulted by the detector and is dropped). -/
abbrev Listing : Type := List (String × String)

/-- Lookup in the magic dict built by `dict_ls_tree`: the last binding of the
filename wins (Python dict assignment), and a filename never bound yields the
`nonexistent` default (the `defaultdict` behaviour). -/
def treeGet (l : Listing) (f : String) : String :=
  (((l.filter (fun e => e.1 == f)).map Prod.snd).getLast?).getD nonexistent

/-- The key set of the magic dict, the `set(ret.keys())` part of
`dict_ls_tree`'s return value. -/
def fileset (l : Listing) : List String :=
  (l.map Prod.fst).dedup

/-- `find_changed(fileset, tree1, tree2)`: the files of the set whose hashes
differ between the two trees. -/
def find_changed (fs : List String) (tree1 tree2 : String → String) : List String :=
  fs.filter (fun f => tree1 f != tree2 f)

/-- Set union of path lists (Python `set.union`), rendered on lists. -/
def listUnion (a b : List String) : List String :=
  (a ++ b).dedup

/-- Reason string of case (1) when the merge took side 1. -/
def tookSide1 : String := "modified in both, took ^1"

/-- Reason string of case (1) when the merge took side 2. -/
def tookSide2 : String := "modified in both, took ^2"

/-- Reason string of case (2): side 2 modified, side 1 taken. -/
def modified2took1 : String := "modified in ^2,   took ^1"

/-- Reason string of case (2): side 1 modified, side 2 taken. -/
def modified1took2 : String := "modified in ^1,   took ^2"

/-- `files_MAB`: files present in at least one of M, A and B. -/
def files_MAB (M A B : Listing) : List String :=
  listUnion (listUnion (fileset M) (fileset A)) (fileset B)

/-- `files_changed`: files that do not agree among all parents, i.e. the union
`find_changed(files_MAB, treeA, treeM) | find_changed(files_MAB, treeB, treeM)`. -/
def files_changed (M A B : Listing) : List String :=
  listUnion (find_changed (files_MAB M A B) (treeGet A) (treeGet M))
            (find_changed (files_MAB M A B) (treeGet B) (treeGet M))

/-- The case (1) loop of `detect_evilness`: for each changed file, skip it if
either side agrees with some merge base; otherwise flag it when M took one
side's content verbatim. -/
def case1_suspects (M A B : Listing) (bases : List Listing) : List (String × String) :=
  let treeY := bases.map treeGet
  (files_changed M A B).filterMap (fun f =>
    if treeY.any (fun t => treeGet A f == t f) then none
    else if treeY.any (fun t => treeGet B f == t f) then none
    else if treeGet M f == treeGet A f then some (f, tookSide1)
    else if treeGet M f == treeGet B f then some (f, tookSide2)
    else none)

/-- `files_changed.difference_update(...)`: the changed files that did not
receive a case (1) suspect. -/
def files_changed_rest (M A B : Listing) (bases : List Listing) : List String :=
  (files_changed M A B).filter
    (fun f => !(((case1_suspects M A B bases).map Prod.fst).contains f))

/-- The `case2_helper` closure of `detect_evilness`: flag a remaining file when
`side1` agrees with M and `side2` matches no merge base. -/
def case2_helper (treeM side1 side2 : String → String) (treeY : List (String → String))
    (cause : String) (fc : List String) : List (String × String) :=
  fc.filterMap (fun f =>
    if side1 f != treeM f then none
    else if treeY.any (fun t => side2 f == t f) then none
    else some (f, cause))

/-- Boolean rendering of Python's sort order on `(filename, reason)` pairs:
lexicographic on the two strings. -/
def pairLE (a b : String × String) : Bool :=
  decide (a.1 < b.1 ∨ (a.1 = b.1 ∧ a.2 ≤ b.2))

/-- The final `suspects.sort()`. -/
def sortPairs (l : List (String × String)) : List (String × String) :=
  l.mergeSort pairLE

/-- The body of `detect_evilness` after the trees have been listed: case (1),
then the two symmetric case (2) passes over the files that case (1) left, and
a final sort. -/
def detectEvilnessCore (M A B : Listing) (bases : List Listing) : List (String × String) :=
  let treeY := bases.map treeGet
  sortPairs (case1_suspects M A B bases
    ++ case2_helper (treeGet M) (treeGet A) (treeGet B) treeY modified2took1
         (files_changed_rest M A B bases)
    ++ case2_helper (treeGet M) (treeGet B) (treeGet A) treeY modified1took2
         (files_changed_rest M A B bases))

/-- `detect_evilness(M, A, B, bases)` of the tree detector.  The statement
`treeY, filesY = zip(*[dict_ls_tree(Y) for Y in bases])` unpacks the zip of
the per-base results; with an empty base list `zip()` yields an empty sequence
and the unpacking raises `ValueError`, modelled as the error case. -/
def detect_evilness (M A B : Listing) (bases : List Listing) :
    Except Unit (List (String × String)) :=
  match bases with
  | [] => Except.error ()
  | _ :: _ => Except.ok (detectEvilnessCore M A B bases)

end EvilTree

namespace EvilDiff

/-- A hunk is the ordered list of its raw lines (each line keeps its sign
character and trailing newline), as accumulated by `split_diff`. -/
abbrev Hunk : Type := List String

/-- The result of `split_diff`: a dict from filename to its ordered hunks,
rendered as an insertion-ordered association list. -/
abbrev FileDiff : Type := List (String × List Hunk)

/-- Python `line.startswith(pre)`. -/
def lineStarts (pre line : String) : Bool :=
  pre.data.isPrefixOf line.data

/-- Python `len(line) and line[0] in '+- \\'`: the test guarding hunk-line
accumulation in `split_diff`. -/
def isHunkChar (line : String) : Bool :=
  match line.data with
  | [] => false
  | c :: _ => (c == '+') || (c == '-') || (c == ' ') || (c == '\\')

/-- A line that `split_diff` actually accumulates into the open hunk: it falls
through every earlier header test and begins with space, `+`, `-` or
backslash. -/
def isHunkLine (line : String) : Bool :=
  !(lineStarts "diff " line) && !(lineStarts "--- " line) &&
  !(lineStarts "+++ " line) && !(lineStarts "index " line) &&
  !(lineStarts "@@ " line) && isHunkChar line

/-- Python dict assignment `d[k] = v`: overwrite the binding if the key is
present, otherwise append a new one. -/
def dictSet (d : FileDiff) (k : String) (v : List Hunk) : FileDiff :=
  if d.any (fun e => e.1 == k) then d.map (fun e => if e.1 == k then (k, v) else e)
  else d ++ [(k, v)]

/-- Python `d[k].append(h)` on the diff dict. -/
def dictAppend (d : FileDiff) (k : String) (h : Hunk) : FileDiff :=
  d.map (fun e => if e.1 == k then (e.1, e.2 ++ [h]) else e)

/-- Python `s[n:]`. -/
def pyDrop (n : Nat) (s : String) : String :=
  String.mk (s.data.drop n)

/-- Python `s.rstrip(newline)`: remove every trailing newline character. -/
def rstripNL (s : String) : String :=
  String.mk ((s.data.reverse.dropWhile (fun c => c == '\n')).reverse)

/-- The `if filename.startswith(b-slash-prefix)` normalisation of the `+++ `
line in `split_diff`. -/
def stripB (s : String) : String :=
  if lineStarts "b/" s then pyDrop 2 s else s

/-- The running state of `split_diff`: the dict built so far, the current
filename if a `+++ ` line has been seen (Python leaves the variable unassigned
before that), and the currently open hunk. -/
structure SplitState where
  diff : FileDiff
  filename : Option String
  hunk : List String

/-- `if len(hunk): diff[filename].append(hunk); hunk = []` — flushing the open
hunk.  Referencing `filename` before any `+++ ` line raises
`UnboundLocalError`, modelled as the error case. -/
def flushHunk (st : SplitState) : Except Unit SplitState :=
  if st.hunk.isEmpty then Except.ok st
  else
    match st.filename with
    | none => Except.error ()
    | some fn => Except.ok ⟨dictAppend st.diff fn st.hunk, st.filename, []⟩

/-- One iteration of the `split_diff` loop: the header tests in source order,
then hunk-line accumulation, then the ignore-everything-else fallthrough. -/
def splitDiffStep (st : SplitState) (line : String) : Except Unit SplitState :=
  if lineStarts "diff " line then flushHunk st
  else if lineStarts "--- " line then Except.ok st
  else if lineStarts "+++ " line then
    let fn := stripB (rstripNL (pyDrop 4 line))
    Except.ok ⟨dictSet st.diff fn [], some fn, []⟩
  else if lineStarts "index " line then Except.ok st
  else if lineStarts "@@ " line then flushHunk st
  else if isHunkChar line then Except.ok ⟨st.diff, st.filename, st.hunk ++ [line]⟩
  else Except.ok st

/-- The `split_diff` loop over all lines, followed by the final flush of the
last open hunk. -/
def splitDiffAux (st : SplitState) : List String → Except Unit SplitState
  | [] => flushHunk st
  | l :: rest =>
    match splitDiffStep st l with
    | Except.error e => Except.error e
    | Except.ok st2 => splitDiffAux st2 rest

/-- `split_diff(data)`, taking the line list `data.splitlines(True)` produces
(each line keeps its trailing newline). -/
def split_diff (lines : List String) : Except Unit FileDiff :=
  (splitDiffAux ⟨[], none, []⟩ lines).map SplitState.diff

/-- `assemble_hunks(hunkseq)`: the loop state is the pending separator and the
output; the separator is empty before the first hunk and a single literal
`@@` line afterwards. -/
def assemble_hunks (hunkseq : List Hunk) : List String :=
  (hunkseq.foldl (fun (st : List String × List String) hunk =>
      (["@@\n"], st.2 ++ st.1 ++ hunk)) ([], [])).2

/-- The sign pairs that `any_suspicious_lines` looks for:
`('--', '+-', '-+', '++')`. -/
def suspPairs : List (List Char) :=
  [['-', '-'], ['+', '-'], ['-', '+'], ['+', '+']]

/-- The loop of `any_suspicious_lines` with its `in_hunk` flag: an `@@ ` line
turns the flag on and is skipped, lines before the flag is on are skipped, and
a line whose first two characters form a suspicious sign pair succeeds. -/
def anySuspAux : List String → Bool → Bool
  | [], _ => false
  | l :: rest, inHunk =>
    if lineStarts "@@ " l then anySuspAux rest true
    else if !inHunk then anySuspAux rest inHunk
    else if suspPairs.contains (l.data.take 2) then true
    else anySuspAux rest inHunk

/-- `any_suspicious_lines(diff)`. -/
def any_suspicious_lines (diff : List String) : Bool :=
  anySuspAux diff false

/-- Python `d.get(f, [])` on a FileDiff dict. -/
def fdGet (d : FileDiff) (f : String) : List Hunk :=
  ((d.find? (fun e => e.1 == f)).map Prod.snd).getD []

/-- Python `''.join(h)`: a hunk's concatenated raw text, the literal key used
by `remove_common_hunks`. -/
def joinHunk (h : Hunk) : String :=
  String.join h

/-- `remove_common_hunks(d1, d2)`: for every path present in both dicts, drop
from each side the hunks whose full literal text occurs among the other
side's hunks for that path; paths on one side only are copied unchanged. -/
def remove_common_hunks (d1 d2 : FileDiff) : FileDiff × FileDiff :=
  let keys1 := d1.map Prod.fst
  let keys2 := d2.map Prod.fst
  let d1new := d1.map (fun e =>
    if keys2.contains e.1 then
      (e.1, e.2.filter (fun h => !(((fdGet d2 e.1).map joinHunk).contains (joinHunk h))))
    else e)
  let d2new := d2.map (fun e =>
    if keys1.contains e.1 then
      (e.1, e.2.filter (fun h => !(((fdGet d1 e.1).map joinHunk).contains (joinHunk h))))
    else e)
  (d1new, d2new)

/-- The path universe of `find_suspicious_hunks`:
`set(dxM.keys()).union(dYx[0].keys())`. -/
def unionKeys (a b : List String) : List String :=
  (a ++ b).dedup

/-- The per-file interdiff of `find_suspicious_hunks`: the injected line-based
diff routine applied to the two reassembled hunk streams, labelled with the
path as both file names (`difflib.unified_diff(pre_t, post_t, f, f)`). -/
def interdiffFor (udiff : List String → List String → String → String → List String)
    (dxM dY0 : FileDiff) (f : String) : List String :=
  udiff (assemble_hunks (fdGet dY0 f)) (assemble_hunks (fdGet dxM f)) f f

/-- The body of `find_suspicious_hunks` once the first base's diff has been
selected: keep exactly the paths whose interdiff shows a suspicious line,
attaching the full interdiff text. -/
def findSuspiciousCore (udiff : List String → List String → String → String → List String)
    (dxM dY0 : FileDiff) : List (String × List String) :=
  (unionKeys (dxM.map Prod.fst) (dY0.map Prod.fst)).filterMap (fun f =>
    let delta := interdiffFor udiff dxM dY0 f
    if any_suspicious_lines delta then some (f, delta) else none)

/-- `find_suspicious_hunks(dxM, dYx)`: the quick-and-dirty version reads
`dYx[0]` and nothing else of the list; an empty list raises `IndexError`,
modelled as the error case. -/
def find_suspicious_hunks (udiff : List String → List String → String → String → List String)
    (dxM : FileDiff) (dYx : List FileDiff) : Except Unit (List (String × List String)) :=
  match dYx with
  | [] => Except.error ()
  | dY0 :: _ => Except.ok (findSuspiciousCore udiff dxM dY0)

/-- `detect_evilness(M, A, B, bases)` of the hunk detector, with the external
diff provider `gdiff` (for `get_diff`) and line-based diff routine `udiff`
(for `difflib.unified_diff`) injected.  The result pairs the two directions'
suspicious-file findings (`idiff_A`, `idiff_B`). -/
def detect_evilness (udiff : List String → List String → String → String → List String)
    (gdiff : String → String → FileDiff) (M A B : String) (bases : List String) :
    Except Unit ((List (String × List String)) × (List (String × List String))) :=
  let dAM := gdiff A M
  let dBM := gdiff B M
  let dYA := bases.map (fun Y => gdiff Y A)
  let dYB := bases.map (fun Y => gdiff Y B)
  let pairs := (dYA.zip dYB).map (fun p => remove_common_hunks p.1 p.2)
  let dYA2 := pairs.map Prod.fst
  let dYB2 := pairs.map Prod.snd
  (find_suspicious_hunks udiff dAM dYB2).bind (fun ia =>
    (find_suspicious_hunks udiff dBM dYA2).map (fun ib => (ia, ib)))

end EvilDiff

/-! ### Helper lemmas about the tree snapshot model -/

theorem treeGet_not_mem {l : EvilTree.Listing} {f : String} (h : f ∉ l.map Prod.fst) :
    EvilTree.treeGet l f = EvilTree.nonexistent := by
  unfold EvilTree.treeGet
  have hfil : l.filter (fun e => e.1 == f) = [] := by
    rw [List.filter_eq_nil_iff]
    intro e he hbeq
    rw [beq_iff_eq] at hbeq
    exact h (by rw [← hbeq]; exact List.mem_map_of_mem Prod.fst he)
  rw [hfil]
  rfl

theorem treeGet_mem_nodup : ∀ {l : EvilTree.Listing} {f sha : String},
    (l.map Prod.fst).Nodup → (f, sha) ∈ l → EvilTree.treeGet l f = sha := by
  intro l
  induction l with
  | nil => intro f sha _ hmem; simp at hmem
  | cons e rest ih =>
    intro f sha hnd hmem
    rw [List.map_cons, List.nodup_cons] at hnd
    rcases List.mem_cons.mp hmem with heq | hmem2
    · have hf : e.1 = f := by rw [← heq]
      have hsha : e.2 = sha := by rw [← heq]
      have hrest : rest.filter (fun x => x.1 == f) = [] := by
        rw [List.filter_eq_nil_iff]
        intro a ha hbeq
        rw [beq_iff_eq] at hbeq
        refine hnd.1 ?_
        rw [hf, ← hbeq]
        exact List.mem_map_of_mem Prod.fst ha
      unfold EvilTree.treeGet
      rw [List.filter_cons, if_pos (beq_iff_eq.mpr hf), hrest]
      simp [hsha]
    · have hne2 : (e.1 == f) = false := by
        rw [beq_eq_false_iff_ne]
        intro hcontra
        refine hnd.1 ?_
        rw [hcontra]
        exact List.mem_map_of_mem Prod.fst hmem2
      have hstep : EvilTree.treeGet (e :: rest) f = EvilTree.treeGet rest f := by
        unfold EvilTree.treeGet
        rw [List.filter_cons, if_neg (by simp [hne2])]
      rw [hstep]
      exact ih hnd.2 hmem2

/-- C8: snapshot lookup is total: a path absent from the listing yields the
reserved all-zero 40-character sentinel, and a path present in the listing
(whose paths are unique, as git guarantees) yields its recorded content
hash. -/
theorem treeGet_total_spec :
    (EvilTree.nonexistent.length = 40 ∧ ∀ c ∈ EvilTree.nonexistent.data, c = '0') ∧
    (∀ (l : EvilTree.Listing) (f : String),
      f ∉ l.map Prod.fst → EvilTree.treeGet l f = EvilTree.nonexistent) ∧
    (∀ (l : EvilTree.Listing) (f sha : String),
      (l.map Prod.fst).Nodup → (f, sha) ∈ l → EvilTree.treeGet l f = sha) := by
  refine ⟨⟨by decide, fun c hc => List.eq_of_mem_replicate hc⟩,
    fun l f h => treeGet_not_mem h,
    fun l f sha h1 h2 => treeGet_mem_nodup h1 h2⟩

/-- Witness for C8 at a concrete listing. -/
theorem treeGet_total_spec_witness :
    EvilTree.treeGet [("a", "h1")] "b" = EvilTree.nonexistent ∧
    EvilTree.treeGet [("a", "h1")] "a" = "h1" :=
  ⟨treeGet_total_spec.2.1 [("a", "h1")] "b" (by decide),
   treeGet_total_spec.2.2 [("a", "h1")] "a" "h1" (by decide) (by decide)⟩

/-- C9: the changed-path computation is symmetric, and a path of the file set
that is present in exactly one snapshot (with a real, non-sentinel hash) is
always included in the result. -/
theorem find_changed_symm_absent :
    (∀ (fs : List String) (t1 t2 : String → String),
      EvilTree.find_changed fs t1 t2 = EvilTree.find_changed fs t2 t1) ∧
    (∀ (fs : List String) (l1 l2 : EvilTree.Listing) (f : String),
      f ∈ fs → f ∈ l1.map Prod.fst → f ∉ l2.map Prod.fst →
      EvilTree.treeGet l1 f ≠ EvilTree.nonexistent →
      f ∈ EvilTree.find_changed fs (EvilTree.treeGet l1) (EvilTree.treeGet l2) ∧
      f ∈ EvilTree.find_changed fs (EvilTree.treeGet l2) (EvilTree.treeGet l1)) := by
  have hsymm : ∀ (fs : List String) (t1 t2 : String → String),
      EvilTree.find_changed fs t1 t2 = EvilTree.find_changed fs t2 t1 := by
    intro fs t1 t2
    unfold EvilTree.find_changed
    refine List.filter_congr ?_
    intro f _
    by_cases h : t1 f = t2 f
    · simp [h]
    · rw [bne_iff_ne.mpr h, bne_iff_ne.mpr (Ne.symm h)]
  refine ⟨hsymm, ?_⟩
  intro fs l1 l2 f hfs _ habs hreal
  have h2 : EvilTree.treeGet l2 f = EvilTree.nonexistent := treeGet_not_mem habs
  have hmem : f ∈ EvilTree.find_changed fs (EvilTree.treeGet l1) (EvilTree.treeGet l2) := by
    unfold EvilTree.find_changed
    rw [List.mem_filter]
    refine ⟨hfs, bne_iff_ne.mpr ?_⟩
    rw [h2]
    exact hreal
  refine ⟨hmem, ?_⟩
  rw [hsymm fs (EvilTree.treeGet l2) (EvilTree.treeGet l1)]
  exact hmem

/-- Witness for C9 at a concrete file set and pair of listings. -/
theorem find_changed_symm_absent_witness :
    "a" ∈ EvilTree.find_changed ["a"] (EvilTree.treeGet [("a", "x")]) (EvilTree.treeGet []) ∧
    "a" ∈ EvilTree.find_changed ["a"] (EvilTree.treeGet []) (EvilTree.treeGet [("a", "x")]) :=
  find_changed_symm_absent.2 ["a"] [("a", "x")] [] "a"
    (by decide) (by decide) (by decide) (by decide)

/-- C3: on an empty merge-base set the tree detector does not complete: the
unpacking of `zip(*[dict_ls_tree(Y) for Y in bases])` raises `ValueError`
before any file can be classified, for every choice of trees. -/
theorem detect_evilness_empty_bases_error :
    ∀ (M A B : EvilTree.Listing), EvilTree.detect_evilness M A B [] = Except.error () :=
  fun _ _ _ => rfl

/-! ### C4: multiple merge bases in the hunk orchestration -/

/-- Counterexample to C4: with two merge bases and no explicit base argument
the hunk orchestration does not fail with a diagnostic and exit status 1 — it
completes and produces an analysis result. -/
theorem multiple_bases_no_error_cex :
    EvilDiff.detect_evilness (fun _ _ _ _ => []) (fun _ _ => []) "m" "a" "b" ["y1", "y2"]
      = Except.ok ([], []) := rfl

/-- C4 (amended): more than one merge base is not an error for the hunk
orchestration: the analysis proceeds and its findings are exactly those of a
run with the base list truncated to its first element; only an empty base
list makes the run fail (the `dYx[0]` subscript raises `IndexError`). -/
theorem multiple_bases_uses_first :
    (∀ (udiff : List String → List String → String → String → List String)
       (gdiff : String → String → EvilDiff.FileDiff) (M A B b : String)
       (rest : List String),
      EvilDiff.detect_evilness udiff gdiff M A B (b :: rest)
        = EvilDiff.detect_evilness udiff gdiff M A B [b]) ∧
    (∀ (udiff : List String → List String → String → String → List String)
       (gdiff : String → String → EvilDiff.FileDiff) (M A B : String),
      EvilDiff.detect_evilness udiff gdiff M A B [] = Except.error ()) :=
  ⟨fun _ _ _ _ _ _ _ => rfl, fun _ _ _ _ _ => rfl⟩

/-! ### Helper lemmas about interdiff assembly and the suspicious-line scan -/

theorem assemble_foldl (hs : List EvilDiff.Hunk) (out : List String) :
    (hs.foldl (fun (st : List String × List String) hunk =>
        (["@@\n"], st.2 ++ st.1 ++ hunk)) (["@@\n"], out)).2
      = out ++ (hs.map (fun hk => "@@\n" :: hk)).flatten := by
  induction hs generalizing out with
  | nil => simp
  | cons h t ih =>
    rw [List.foldl_cons, ih]
    simp

theorem assemble_eq_intercalate (hs : List EvilDiff.Hunk) :
    EvilDiff.assemble_hunks hs = List.intercalate ["@@\n"] hs := by
  cases hs with
  | nil => rfl
  | cons h t =>
    have hright : List.intercalate ["@@\n"] (h :: t)
        = h ++ (t.map (fun hk => "@@\n" :: hk)).flatten := by
      induction t generalizing h with
      | nil => simp [List.intercalate]
      | cons h2 t2 ih =>
        simp only [List.intercalate] at ih ⊢
        rw [List.intersperse_cons_cons, List.flatten_cons, List.flatten_cons, ih h2]
        simp
    rw [hright]
    unfold EvilDiff.assemble_hunks
    rw [List.foldl_cons, assemble_foldl]
    simp

theorem mem_findSuspiciousCore
    {udiff : List String → List String → String → String → List String}
    {dxM dY0 : EvilDiff.FileDiff} {f : String} {dl : List String} :
    (f, dl) ∈ EvilDiff.findSuspiciousCore udiff dxM dY0 ↔
      f ∈ EvilDiff.unionKeys (dxM.map Prod.fst) (dY0.map Prod.fst) ∧
      EvilDiff.any_suspicious_lines (EvilDiff.interdiffFor udiff dxM dY0 f) = true ∧
      dl = EvilDiff.interdiffFor udiff dxM dY0 f := by
  unfold EvilDiff.findSuspiciousCore
  rw [List.mem_filterMap]
  constructor
  · rintro ⟨a, ha, hg⟩
    dsimp only at hg
    cases hsusp : EvilDiff.any_suspicious_lines (EvilDiff.interdiffFor udiff dxM dY0 a)
    · rw [hsusp] at hg
      simp at hg
    · rw [hsusp] at hg
      simp only [if_true] at hg
      have hpair := Option.some.inj hg
      have hfa : a = f := congrArg Prod.fst hpair
      have hdl : EvilDiff.interdiffFor udiff dxM dY0 a = dl := congrArg Prod.snd hpair
      subst hfa
      exact ⟨ha, hsusp, hdl.symm⟩
  · rintro ⟨hf, hs, rfl⟩
    refine ⟨f, hf, ?_⟩
    dsimp only
    rw [hs]
    simp

/-- C7: the interdiff generator's reassembly is the concatenation of the hunks
with exactly one literal `@@` separator line between consecutive hunks and
none before the first, and every reported interdiff is the injected line-based
diff of the two reassemblies, labelled with the path as both file names. -/
theorem assemble_hunks_spec :
    (EvilDiff.assemble_hunks [] = ([] : List String)) ∧
    (∀ h : EvilDiff.Hunk, EvilDiff.assemble_hunks [h] = h) ∧
    (∀ hs : List EvilDiff.Hunk,
      EvilDiff.assemble_hunks hs = List.intercalate ["@@\n"] hs) ∧
    (∀ (udiff : List String → List String → String → String → List String)
       (dxM dY0 : EvilDiff.FileDiff) (f : String) (dl : List String),
      (f, dl) ∈ EvilDiff.findSuspiciousCore udiff dxM dY0 →
      dl = udiff (EvilDiff.assemble_hunks (EvilDiff.fdGet dY0 f))
                 (EvilDiff.assemble_hunks (EvilDiff.fdGet dxM f)) f f) := by
  refine ⟨rfl, fun h => by simp [EvilDiff.assemble_hunks], assemble_eq_intercalate,
    fun udiff dxM dY0 f dl hmem => ?_⟩
  exact (mem_findSuspiciousCore.mp hmem).2.2

/-- Witness for C7: a concrete reported interdiff equals the injected diff of
the two reassemblies labelled with the path twice. -/
theorem assemble_hunks_spec_witness :
    ["@@ \n", "++x\n"] =
      (fun _ _ _ _ => ["@@ \n", "++x\n"] :
        List String → List String → String → String → List String)
        (EvilDiff.assemble_hunks (EvilDiff.fdGet [] "a"))
        (EvilDiff.assemble_hunks (EvilDiff.fdGet [("a", [])] "a")) "a" "a" :=
  assemble_hunks_spec.2.2.2 (fun _ _ _ _ => ["@@ \n", "++x\n"]) [("a", [])] [] "a"
    ["@@ \n", "++x\n"] (by decide)

theorem take2_of_atat {l : String} (h : EvilDiff.lineStarts "@@ " l = true) :
    l.data.take 2 = ['@', '@'] := by
  have h2 : (['@', '@', ' '] : List Char).isPrefixOf l.data = true := h
  rcases hl : l.data with _ | ⟨c1, _ | ⟨c2, rest⟩⟩ <;> rw [hl] at h2 <;>
    simp [List.isPrefixOf] at h2 ⊢
  exact ⟨h2.1.symm, h2.2.1.symm⟩

theorem exShift {P : String → Prop} {l : String} {rest : List String} (hl : ¬ P l) :
    (∃ i < (l :: rest).length, P ((l :: rest).getD i "")) ↔
      ∃ i < rest.length, P (rest.getD i "") := by
  constructor
  · rintro ⟨i, hi, hp⟩
    cases i with
    | zero => rw [List.getD_cons_zero] at hp; exact absurd hp hl
    | succ k =>
      rw [List.getD_cons_succ] at hp
      refine ⟨k, ?_, hp⟩
      simp only [List.length_cons] at hi
      omega
  · rintro ⟨i, hi, hp⟩
    refine ⟨i + 1, ?_, ?_⟩
    · simp only [List.length_cons]
      omega
    · rw [List.getD_cons_succ]
      exact hp

theorem anySusp_true_iff : ∀ d : List String,
    EvilDiff.anySuspAux d true = true ↔
      ∃ i < d.length, (d.getD i "").data.take 2 ∈ EvilDiff.suspPairs := by
  intro d
  induction d with
  | nil => simp [EvilDiff.anySuspAux]
  | cons l rest ih =>
    by_cases hat : EvilDiff.lineStarts "@@ " l = true
    · rw [show EvilDiff.anySuspAux (l :: rest) true = EvilDiff.anySuspAux rest true from by
        simp [EvilDiff.anySuspAux, hat]]
      rw [ih]
      refine (exShift (P := fun s => s.data.take 2 ∈ EvilDiff.suspPairs) ?_).symm
      intro hp
      have hp2 : List.take 2 l.data ∈ EvilDiff.suspPairs := hp
      rw [take2_of_atat hat] at hp2
      exact absurd hp2 (by decide)
    · have hatf : EvilDiff.lineStarts "@@ " l = false := by
        cases hc : EvilDiff.lineStarts "@@ " l
        · rfl
        · exact absurd hc hat
      by_cases hpl : EvilDiff.suspPairs.contains (l.data.take 2) = true
      · rw [show EvilDiff.anySuspAux (l :: rest) true = true from by
          simp [EvilDiff.anySuspAux, hatf]
          exact Or.inl (List.elem_iff.mp hpl)]
        simp only [true_iff]
        refine ⟨0, by simp, ?_⟩
        rw [List.getD_cons_zero]
        exact List.elem_iff.mp hpl
      · have hplf : EvilDiff.suspPairs.contains (l.data.take 2) = false := by
          cases hc : EvilDiff.suspPairs.contains (l.data.take 2)
          · rfl
          · exact absurd hc hpl
        rw [show EvilDiff.anySuspAux (l :: rest) true = EvilDiff.anySuspAux rest true from by
          simp [EvilDiff.anySuspAux, hatf]
          intro hmem
          exact absurd (List.elem_iff.mpr hmem) hpl]
        rw [ih]
        refine (exShift (P := fun s => s.data.take 2 ∈ EvilDiff.suspPairs) ?_).symm
        intro hp
        have hp2 : List.take 2 l.data ∈ EvilDiff.suspPairs := hp
        exact hpl (List.elem_iff.mpr hp2)

theorem anySusp_false_iff : ∀ d : List String,
    EvilDiff.anySuspAux d false = true ↔
      ∃ i < d.length, (d.getD i "").data.take 2 ∈ EvilDiff.suspPairs ∧
        ∃ j < i, EvilDiff.lineStarts "@@ " (d.getD j "") = true := by
  intro d
  induction d with
  | nil => simp [EvilDiff.anySuspAux]
  | cons l rest ih =>
    by_cases hat : EvilDiff.lineStarts "@@ " l = true
    · rw [show EvilDiff.anySuspAux (l :: rest) false = EvilDiff.anySuspAux rest true from by
        simp [EvilDiff.anySuspAux, hat]]
      rw [anySusp_true_iff rest]
      constructor
      · rintro ⟨i, hi, hp⟩
        refine ⟨i + 1, by simp only [List.length_cons]; omega, ?_, 0, Nat.succ_pos i, ?_⟩
        · rw [List.getD_cons_succ]; exact hp
        · rw [List.getD_cons_zero]; exact hat
      · rintro ⟨i, hi, hp, j, hj, _⟩
        cases i with
        | zero => exact absurd hj (Nat.not_lt_zero j)
        | succ k =>
          rw [List.getD_cons_succ] at hp
          refine ⟨k, ?_, hp⟩
          simp only [List.length_cons] at hi
          omega
    · have hatf : EvilDiff.lineStarts "@@ " l = false := by
        cases hc : EvilDiff.lineStarts "@@ " l
        · rfl
        · exact absurd hc hat
      rw [show EvilDiff.anySuspAux (l :: rest) false = EvilDiff.anySuspAux rest false from by
        simp [EvilDiff.anySuspAux, hatf]]
      rw [ih]
      constructor
      · rintro ⟨i, hi, hp, j, hj, hja⟩
        refine ⟨i + 1, by simp only [List.length_cons]; omega, ?_, j + 1, by omega, ?_⟩
        · rw [List.getD_cons_succ]; exact hp
        · rw [List.getD_cons_succ]; exact hja
      · rintro ⟨i, hi, hp, j, hj, hja⟩
        cases j with
        | zero =>
          exfalso
          rw [List.getD_cons_zero, hatf] at hja
          cases hja
        | succ jk =>
          cases i with
          | zero => exact absurd hj (Nat.not_lt_zero _)
          | succ ik =>
            rw [List.getD_cons_succ] at hp hja
            refine ⟨ik, ?_, hp, jk, by omega, hja⟩
            simp only [List.length_cons] at hi
            omega

/-- C5: the hunk-level scan flags an interdiff exactly when some line after
the first `@@ ` marker line has its first two characters among the four
suspicious sign pairs (preamble lines are never flagged), and
`find_suspicious_hunks` reports exactly the paths whose interdiff is flagged,
attaching the full interdiff text. -/
theorem suspicious_lines_spec :
    (∀ d : List String, EvilDiff.any_suspicious_lines d = true ↔
      ∃ i < d.length, (d.getD i "").data.take 2 ∈ EvilDiff.suspPairs ∧
        ∃ j < i, EvilDiff.lineStarts "@@ " (d.getD j "") = true) ∧
    (∀ (udiff : List String → List String → String → String → List String)
       (dxM dY0 : EvilDiff.FileDiff) (f : String) (dl : List String),
      (f, dl) ∈ EvilDiff.findSuspiciousCore udiff dxM dY0 ↔
        f ∈ EvilDiff.unionKeys (dxM.map Prod.fst) (dY0.map Prod.fst) ∧
        EvilDiff.any_suspicious_lines (EvilDiff.interdiffFor udiff dxM dY0 f) = true ∧
        dl = EvilDiff.interdiffFor udiff dxM dY0 f) := by
  refine ⟨fun d => anySusp_false_iff d, fun udiff dxM dY0 f dl => mem_findSuspiciousCore⟩

/-- Witness for C5: a concrete interdiff with a double-signed line after its
first hunk marker is flagged. -/
theorem suspicious_lines_spec_witness :
    EvilDiff.any_suspicious_lines ["@@ x\n", "--y\n"] = true :=
  (suspicious_lines_spec.1 ["@@ x\n", "--y\n"]).mpr
    ⟨1, by decide, by decide, 0, by decide, by decide⟩

/-! ### Helper lemmas about FileDiff dictionaries and C6 -/

theorem fdGet_cons_eq {e : String × List EvilDiff.Hunk} {rest : EvilDiff.FileDiff}
    {f : String} (h : (e.1 == f) = true) : EvilDiff.fdGet (e :: rest) f = e.2 := by
  unfold EvilDiff.fdGet
  rw [List.find?_cons]
  simp [h]

theorem fdGet_cons_ne {e : String × List EvilDiff.Hunk} {rest : EvilDiff.FileDiff}
    {f : String} (h : (e.1 == f) = false) :
    EvilDiff.fdGet (e :: rest) f = EvilDiff.fdGet rest f := by
  unfold EvilDiff.fdGet
  rw [List.find?_cons]
  simp [h]

theorem fdGet_cons_pair_eq {k : String} {v : List EvilDiff.Hunk} {rest : EvilDiff.FileDiff}
    {f : String} (h : (k == f) = true) : EvilDiff.fdGet ((k, v) :: rest) f = v := by
  unfold EvilDiff.fdGet
  rw [List.find?_cons]
  simp [h]

theorem fdGet_cons_pair_ne {k : String} {v : List EvilDiff.Hunk} {rest : EvilDiff.FileDiff}
    {f : String} (h : (k == f) = false) :
    EvilDiff.fdGet ((k, v) :: rest) f = EvilDiff.fdGet rest f := by
  unfold EvilDiff.fdGet
  rw [List.find?_cons]
  simp [h]

theorem fdGet_filter_map : ∀ (d other : EvilDiff.FileDiff) (f : String),
    f ∈ other.map Prod.fst →
    EvilDiff.fdGet (d.map (fun e =>
      if (other.map Prod.fst).contains e.1 then
        (e.1, e.2.filter (fun h =>
          !(((EvilDiff.fdGet other e.1).map EvilDiff.joinHunk).contains (EvilDiff.joinHunk h))))
      else e)) f
    = (EvilDiff.fdGet d f).filter
        (fun h =>
          !(((EvilDiff.fdGet other f).map EvilDiff.joinHunk).contains (EvilDiff.joinHunk h))) := by
  intro d other f hf
  induction d with
  | nil => rfl
  | cons e rest ih =>
    simp only [List.map_cons]
    by_cases hbe : (e.1 == f) = true
    · have hfe : e.1 = f := beq_iff_eq.mp hbe
      have hco : (other.map Prod.fst).contains e.1 = true := by
        rw [hfe]
        exact List.elem_iff.mpr hf
      rw [if_pos hco, fdGet_cons_pair_eq hbe, fdGet_cons_eq hbe, hfe]
    · have hbef : (e.1 == f) = false := by
        cases hc : (e.1 == f)
        · rfl
        · exact absurd hc hbe
      cases hco : (other.map Prod.fst).contains e.1 with
      | false =>
        rw [if_neg (by simp), fdGet_cons_ne hbef, fdGet_cons_ne hbef]
        exact ih
      | true =>
        rw [if_pos rfl, fdGet_cons_pair_ne hbef, fdGet_cons_ne hbef]
        exact ih

/-- C6: for a path common to both collections, the hunk-set differencer keeps
each side's hunks filtered exactly by literal full-text absence from the other
side (so order is preserved and removal happens only on exact full-text
matches), and a hunk whose concatenated text differs from every opposite-side
hunk is retained. -/
theorem remove_common_hunks_spec (d1 d2 : EvilDiff.FileDiff) (f : String)
    (h1 : f ∈ d1.map Prod.fst) (h2 : f ∈ d2.map Prod.fst) :
    (EvilDiff.fdGet (EvilDiff.remove_common_hunks d1 d2).1 f
      = (EvilDiff.fdGet d1 f).filter
          (fun h =>
            !(((EvilDiff.fdGet d2 f).map EvilDiff.joinHunk).contains (EvilDiff.joinHunk h)))) ∧
    (EvilDiff.fdGet (EvilDiff.remove_common_hunks d1 d2).2 f
      = (EvilDiff.fdGet d2 f).filter
          (fun h =>
            !(((EvilDiff.fdGet d1 f).map EvilDiff.joinHunk).contains (EvilDiff.joinHunk h)))) ∧
    (∀ h ∈ EvilDiff.fdGet d1 f,
      (∀ h2 ∈ EvilDiff.fdGet d2 f, EvilDiff.joinHunk h ≠ EvilDiff.joinHunk h2) →
      h ∈ EvilDiff.fdGet (EvilDiff.remove_common_hunks d1 d2).1 f) ∧
    (∀ h ∈ EvilDiff.fdGet d2 f,
      (∀ h2 ∈ EvilDiff.fdGet d1 f, EvilDiff.joinHunk h ≠ EvilDiff.joinHunk h2) →
      h ∈ EvilDiff.fdGet (EvilDiff.remove_common_hunks d1 d2).2 f) := by
  have e1 : EvilDiff.fdGet (EvilDiff.remove_common_hunks d1 d2).1 f
      = (EvilDiff.fdGet d1 f).filter
          (fun h =>
            !(((EvilDiff.fdGet d2 f).map EvilDiff.joinHunk).contains (EvilDiff.joinHunk h))) :=
    fdGet_filter_map d1 d2 f h2
  have e2 : EvilDiff.fdGet (EvilDiff.remove_common_hunks d1 d2).2 f
      = (EvilDiff.fdGet d2 f).filter
          (fun h =>
            !(((EvilDiff.fdGet d1 f).map EvilDiff.joinHunk).contains (EvilDiff.joinHunk h))) :=
    fdGet_filter_map d2 d1 f h1
  have hretain : ∀ (da db : EvilDiff.FileDiff) (res : List EvilDiff.Hunk),
      res = (EvilDiff.fdGet da f).filter
          (fun h =>
            !(((EvilDiff.fdGet db f).map EvilDiff.joinHunk).contains (EvilDiff.joinHunk h))) →
      ∀ h ∈ EvilDiff.fdGet da f,
      (∀ h2 ∈ EvilDiff.fdGet db f, EvilDiff.joinHunk h ≠ EvilDiff.joinHunk h2) →
      h ∈ res := by
    intro da db res hres h hmem hdiff
    rw [hres, List.mem_filter]
    refine ⟨hmem, ?_⟩
    cases hc : ((EvilDiff.fdGet db f).map EvilDiff.joinHunk).contains (EvilDiff.joinHunk h) with
    | false => simp [hc]
    | true =>
      exfalso
      have hmem2 := List.elem_iff.mp hc
      rw [List.mem_map] at hmem2
      obtain ⟨h3, hm3, heq3⟩ := hmem2
      exact hdiff h3 hm3 heq3.symm
  exact ⟨e1, e2, hretain d1 d2 _ e1, hretain d2 d1 _ e2⟩

/-- Witness for C6: a hunk whose text matches no hunk on the other side is
retained for the common path. -/
theorem remove_common_hunks_spec_witness :
    ["x\n"] ∈ EvilDiff.fdGet
      (EvilDiff.remove_common_hunks
        [("a", [["x\n"], ["y\n"]])] [("a", [["y\n"], ["z\n"]])]).1 "a" :=
  (remove_common_hunks_spec [("a", [["x\n"], ["y\n"]])] [("a", [["y\n"], ["z\n"]])] "a"
      (by decide) (by decide)).2.2.1 ["x\n"] (by decide) (by decide)

/-! ### Helper lemmas for the split_diff state machine (C10) -/

theorem firstCharsAgree {c1 c2 : Char} {p1 p2 s : List Char}
    (h1 : (c1 :: p1).isPrefixOf s = true) (h2 : (c2 :: p2).isPrefixOf s = true) :
    c1 = c2 := by
  cases s with
  | nil => simp [List.isPrefixOf] at h1
  | cons a as =>
    simp [List.isPrefixOf] at h1 h2
    rw [h1.1, h2.1]

theorem flushSome (st : EvilDiff.SplitState) (fn : String) (h : st.filename = some fn) :
    ∃ st2 fn2, EvilDiff.flushHunk st = Except.ok st2 ∧ st2.filename = some fn2 := by
  unfold EvilDiff.flushHunk
  split
  · exact ⟨st, fn, rfl, h⟩
  · rw [h]
    exact ⟨_, fn, rfl, rfl⟩

theorem stepSome (st : EvilDiff.SplitState) (l : String) (fn : String)
    (h : st.filename = some fn) :
    ∃ st2 fn2, EvilDiff.splitDiffStep st l = Except.ok st2 ∧ st2.filename = some fn2 := by
  unfold EvilDiff.splitDiffStep
  split
  · exact flushSome st fn h
  split
  · exact ⟨st, fn, rfl, h⟩
  split
  · exact ⟨_, _, rfl, rfl⟩
  split
  · exact ⟨st, fn, rfl, h⟩
  split
  · exact flushSome st fn h
  split
  · exact ⟨_, fn, rfl, h⟩
  · exact ⟨st, fn, rfl, h⟩

theorem auxSome : ∀ (lines : List String) (st : EvilDiff.SplitState) (fn : String),
    st.filename = some fn →
    ∃ st2, EvilDiff.splitDiffAux st lines = Except.ok st2 := by
  intro lines
  induction lines with
  | nil =>
    intro st fn h
    obtain ⟨st2, fn2, hs, _⟩ := flushSome st fn h
    exact ⟨st2, hs⟩
  | cons l rest ih =>
    intro st fn h
    obtain ⟨st2, fn2, hs, h2⟩ := stepSome st l fn h
    obtain ⟨st3, h3⟩ := ih st2 fn2 h2
    refine ⟨st3, ?_⟩
    rw [show EvilDiff.splitDiffAux st (l :: rest)
        = EvilDiff.splitDiffAux st2 rest from by
      simp only [EvilDiff.splitDiffAux, hs]]
    exact h3

theorem auxNone : ∀ (lines : List String) (st : EvilDiff.SplitState),
    st.filename = none → st.hunk = [] →
    (∀ i < lines.length, EvilDiff.isHunkLine (lines.getD i "") = true →
      ∃ j < i, EvilDiff.lineStarts "+++ " (lines.getD j "") = true) →
    ∃ st2, EvilDiff.splitDiffAux st lines = Except.ok st2 := by
  intro lines
  induction lines with
  | nil =>
    intro st hfn hhk _
    refine ⟨st, ?_⟩
    show EvilDiff.flushHunk st = Except.ok st
    unfold EvilDiff.flushHunk
    rw [if_pos (by rw [hhk]; rfl)]
  | cons l rest ih =>
    intro st hfn hhk hcond
    have hshift : EvilDiff.lineStarts "+++ " l = false →
        (∀ i < rest.length, EvilDiff.isHunkLine (rest.getD i "") = true →
          ∃ j < i, EvilDiff.lineStarts "+++ " (rest.getD j "") = true) := by
      intro hl i hi hh
      obtain ⟨j, hj, hpp⟩ := hcond (i + 1)
        (by simp only [List.length_cons]; omega)
        (by rw [List.getD_cons_succ]; exact hh)
      cases j with
      | zero =>
        rw [List.getD_cons_zero, hl] at hpp
        cases hpp
      | succ k =>
        rw [List.getD_cons_succ] at hpp
        exact ⟨k, by omega, hpp⟩
    have hrecur : EvilDiff.splitDiffStep st l = Except.ok st →
        EvilDiff.lineStarts "+++ " l = false →
        ∃ st2, EvilDiff.splitDiffAux st (l :: rest) = Except.ok st2 := by
      intro hstep hpf
      obtain ⟨st2, h2⟩ := ih st hfn hhk (hshift hpf)
      refine ⟨st2, ?_⟩
      rw [show EvilDiff.splitDiffAux st (l :: rest)
          = EvilDiff.splitDiffAux st rest from by
        simp only [EvilDiff.splitDiffAux, hstep]]
      exact h2
    have hflush : EvilDiff.flushHunk st = Except.ok st := by
      unfold EvilDiff.flushHunk
      rw [if_pos (by rw [hhk]; rfl)]
    by_cases hd : EvilDiff.lineStarts "diff " l = true
    · have hpf : EvilDiff.lineStarts "+++ " l = false := by
        cases hp : EvilDiff.lineStarts "+++ " l
        · rfl
        · exfalso
          have hc := firstCharsAgree
            (show (['d', 'i', 'f', 'f', ' '] : List Char).isPrefixOf l.data = true from hd)
            (show (['+', '+', '+', ' '] : List Char).isPrefixOf l.data = true from hp)
          exact absurd hc (by decide)
      refine hrecur ?_ hpf
      unfold EvilDiff.splitDiffStep
      rw [if_pos hd]
      exact hflush
    · by_cases h3 : EvilDiff.lineStarts "--- " l = true
      · have hpf : EvilDiff.lineStarts "+++ " l = false := by
          cases hp : EvilDiff.lineStarts "+++ " l
          · rfl
          · exfalso
            have hc := firstCharsAgree
              (show (['-', '-', '-', ' '] : List Char).isPrefixOf l.data = true from h3)
              (show (['+', '+', '+', ' '] : List Char).isPrefixOf l.data = true from hp)
            exact absurd hc (by decide)
        refine hrecur ?_ hpf
        unfold EvilDiff.splitDiffStep
        rw [if_neg hd, if_pos h3]
      · by_cases hp : EvilDiff.lineStarts "+++ " l = true
        · obtain ⟨st3, h3'⟩ := auxSome rest
            ⟨EvilDiff.dictSet st.diff (EvilDiff.stripB (EvilDiff.rstripNL (EvilDiff.pyDrop 4 l))) [],
             some (EvilDiff.stripB (EvilDiff.rstripNL (EvilDiff.pyDrop 4 l))), []⟩
            (EvilDiff.stripB (EvilDiff.rstripNL (EvilDiff.pyDrop 4 l))) rfl
          refine ⟨st3, ?_⟩
          rw [show EvilDiff.splitDiffAux st (l :: rest)
              = EvilDiff.splitDiffAux
                  ⟨EvilDiff.dictSet st.diff
                      (EvilDiff.stripB (EvilDiff.rstripNL (EvilDiff.pyDrop 4 l))) [],
                   some (EvilDiff.stripB (EvilDiff.rstripNL (EvilDiff.pyDrop 4 l))), []⟩ rest from by
            simp only [EvilDiff.splitDiffAux, EvilDiff.splitDiffStep, hd, h3, hp]
            simp]
          exact h3'
        · have hpf : EvilDiff.lineStarts "+++ " l = false := by
            cases hpc : EvilDiff.lineStarts "+++ " l
            · rfl
            · exact absurd hpc hp
          by_cases hidx : EvilDiff.lineStarts "index " l = true
          · refine hrecur ?_ hpf
            unfold EvilDiff.splitDiffStep
            rw [if_neg hd, if_neg h3, if_neg hp, if_pos hidx]
          · by_cases hat : EvilDiff.lineStarts "@@ " l = true
            · refine hrecur ?_ hpf
              unfold EvilDiff.splitDiffStep
              rw [if_neg hd, if_neg h3, if_neg hp, if_neg hidx, if_pos hat]
              exact hflush
            · by_cases hch : EvilDiff.isHunkChar l = true
              · exfalso
                have hdf : EvilDiff.lineStarts "diff " l = false := by
                  cases hc : EvilDiff.lineStarts "diff " l
                  · rfl
                  · exact absurd hc hd
                have h3f : EvilDiff.lineStarts "--- " l = false := by
                  cases hc : EvilDiff.lineStarts "--- " l
                  · rfl
                  · exact absurd hc h3
                have hidxf : EvilDiff.lineStarts "index " l = false := by
                  cases hc : EvilDiff.lineStarts "index " l
                  · rfl
                  · exact absurd hc hidx
                have hatf : EvilDiff.lineStarts "@@ " l = false := by
                  cases hc : EvilDiff.lineStarts "@@ " l
                  · rfl
                  · exact absurd hc hat
                have hhl : EvilDiff.isHunkLine l = true := by
                  unfold EvilDiff.isHunkLine
                  rw [hdf, h3f, hpf, hidxf, hatf, hch]
                  rfl
                obtain ⟨j, hj, _⟩ := hcond 0 (by simp)
                  (by rw [List.getD_cons_zero]; exact hhl)
                exact Nat.not_lt_zero j hj
              · refine hrecur ?_ hpf
                unfold EvilDiff.splitDiffStep
                rw [if_neg hd, if_neg h3, if_neg hp, if_neg hidx, if_neg hat, if_neg hch]

/-- Counterexample to C10 as stated: the parser is not total *only* on inputs
whose hunk lines all follow a `+++ ` header — here a hunk line precedes any
header, yet the parse succeeds (the pending line is silently dropped by the
`+++ ` handler). -/
theorem split_diff_total_beyond_cex :
    EvilDiff.split_diff [" x\n", "+++ b/f\n"] = Except.ok [("f", [])] ∧
    EvilDiff.isHunkLine " x\n" = true ∧
    EvilDiff.lineStarts "+++ " " x\n" = false :=
  ⟨rfl, by decide, by decide⟩

/-- C10 (amended): the parser is partial — on the input `" x\n@@ \n"` a hunk
line is accumulated before any `+++ ` header and the flush raises the
unassigned-variable error — and it is total on every input in which each
accumulated hunk line is preceded by a `+++ ` header line (though not only on
those). -/
theorem split_diff_partiality :
    (EvilDiff.split_diff [" x\n", "@@ \n"] = Except.error ()) ∧
    (∀ lines : List String,
      (∀ i < lines.length, EvilDiff.isHunkLine (lines.getD i "") = true →
        ∃ j < i, EvilDiff.lineStarts "+++ " (lines.getD j "") = true) →
      ∃ d, EvilDiff.split_diff lines = Except.ok d) := by
  refine ⟨rfl, fun lines hcond => ?_⟩
  obtain ⟨st2, h2⟩ := auxNone lines ⟨[], none, []⟩ rfl rfl hcond
  refine ⟨st2.diff, ?_⟩
  unfold EvilDiff.split_diff
  rw [h2]
  rfl

/-- Witness for C10 (amended): a well-formed two-line diff fragment parses
without error. -/
theorem split_diff_partiality_witness :
    ∃ d, EvilDiff.split_diff ["+++ b/f\n", " x\n"] = Except.ok d :=
  split_diff_partiality.2 ["+++ b/f\n", " x\n"] (by decide)

/-! ### Helper lemmas for the tree classifier cases (C1, C2) -/

theorem anyMatch_iff (bases : List EvilTree.Listing) (t : String → String) (f : String) :
    ((bases.map EvilTree.treeGet).any (fun ty => t f == ty f) = true) ↔
      ∃ Y ∈ bases, t f = EvilTree.treeGet Y f := by
  rw [List.any_eq_true]
  constructor
  · rintro ⟨ty, hty, hbeq⟩
    rw [List.mem_map] at hty
    obtain ⟨Y, hY, hYe⟩ := hty
    subst hYe
    have hbeq2 : (t f == EvilTree.treeGet Y f) = true := hbeq
    exact ⟨Y, hY, beq_iff_eq.mp hbeq2⟩
  · rintro ⟨Y, hY, heq⟩
    refine ⟨EvilTree.treeGet Y, List.mem_map_of_mem _ hY, ?_⟩
    show (t f == EvilTree.treeGet Y f) = true
    exact beq_iff_eq.mpr heq

theorem mem_case1_iff (M A B : EvilTree.Listing) (bases : List EvilTree.Listing)
    (f r : String) :
    (f, r) ∈ EvilTree.case1_suspects M A B bases ↔
      f ∈ EvilTree.files_changed M A B ∧
      (∀ Y ∈ bases, EvilTree.treeGet A f ≠ EvilTree.treeGet Y f) ∧
      (∀ Y ∈ bases, EvilTree.treeGet B f ≠ EvilTree.treeGet Y f) ∧
      ((r = EvilTree.tookSide1 ∧ EvilTree.treeGet M f = EvilTree.treeGet A f) ∨
       (r = EvilTree.tookSide2 ∧ EvilTree.treeGet M f ≠ EvilTree.treeGet A f ∧
        EvilTree.treeGet M f = EvilTree.treeGet B f)) := by
  simp only [EvilTree.case1_suspects]
  rw [List.mem_filterMap]
  constructor
  · rintro ⟨a, ha, hg⟩
    by_cases hc1 :
        ((bases.map EvilTree.treeGet).any (fun t => EvilTree.treeGet A a == t a)) = true
    · rw [if_pos hc1] at hg; simp at hg
    rw [if_neg hc1] at hg
    by_cases hc2 :
        ((bases.map EvilTree.treeGet).any (fun t => EvilTree.treeGet B a == t a)) = true
    · rw [if_pos hc2] at hg; simp at hg
    rw [if_neg hc2] at hg
    by_cases hc3 : EvilTree.treeGet M a = EvilTree.treeGet A a
    · rw [if_pos (beq_iff_eq.mpr hc3)] at hg
      have hp := Option.some.inj hg
      have haf : a = f := congrArg Prod.fst hp
      have hr : EvilTree.tookSide1 = r := congrArg Prod.snd hp
      subst haf
      refine ⟨ha, ?_, ?_, Or.inl ⟨hr.symm, hc3⟩⟩
      · intro Y hY heq
        exact hc1 ((anyMatch_iff bases (EvilTree.treeGet A) a).mpr ⟨Y, hY, heq⟩)
      · intro Y hY heq
        exact hc2 ((anyMatch_iff bases (EvilTree.treeGet B) a).mpr ⟨Y, hY, heq⟩)
    · rw [if_neg (fun hb => hc3 (beq_iff_eq.mp hb))] at hg
      by_cases hc4 : EvilTree.treeGet M a = EvilTree.treeGet B a
      · rw [if_pos (beq_iff_eq.mpr hc4)] at hg
        have hp := Option.some.inj hg
        have haf : a = f := congrArg Prod.fst hp
        have hr : EvilTree.tookSide2 = r := congrArg Prod.snd hp
        subst haf
        refine ⟨ha, ?_, ?_, Or.inr ⟨hr.symm, hc3, hc4⟩⟩
        · intro Y hY heq
          exact hc1 ((anyMatch_iff bases (EvilTree.treeGet A) a).mpr ⟨Y, hY, heq⟩)
        · intro Y hY heq
          exact hc2 ((anyMatch_iff bases (EvilTree.treeGet B) a).mpr ⟨Y, hY, heq⟩)
      · rw [if_neg (fun hb => hc4 (beq_iff_eq.mp hb))] at hg
        simp at hg
  · rintro ⟨hf, hA, hB, hcase⟩
    refine ⟨f, hf, ?_⟩
    dsimp only
    have hc1 : ((bases.map EvilTree.treeGet).any
        (fun t => EvilTree.treeGet A f == t f)) = false := by
      cases hc : ((bases.map EvilTree.treeGet).any
          (fun t => EvilTree.treeGet A f == t f))
      · rfl
      · exfalso
        obtain ⟨Y, hY, heq⟩ := (anyMatch_iff bases (EvilTree.treeGet A) f).mp hc
        exact hA Y hY heq
    have hc2 : ((bases.map EvilTree.treeGet).any
        (fun t => EvilTree.treeGet B f == t f)) = false := by
      cases hc : ((bases.map EvilTree.treeGet).any
          (fun t => EvilTree.treeGet B f == t f))
      · rfl
      · exfalso
        obtain ⟨Y, hY, heq⟩ := (anyMatch_iff bases (EvilTree.treeGet B) f).mp hc
        exact hB Y hY heq
    rw [if_neg (by simp [hc1]), if_neg (by simp [hc2])]
    rcases hcase with ⟨hr, hMA⟩ | ⟨hr, hMA, hMB⟩
    · rw [if_pos (beq_iff_eq.mpr hMA), hr]
    · rw [if_neg (fun hb => hMA (beq_iff_eq.mp hb)), if_pos (beq_iff_eq.mpr hMB), hr]

theorem mem_case2_iff (treeM s1 s2 : String → String) (treeY : List (String → String))
    (cause : String) (fc : List String) (f r : String) :
    (f, r) ∈ EvilTree.case2_helper treeM s1 s2 treeY cause fc ↔
      f ∈ fc ∧ r = cause ∧ s1 f = treeM f ∧ ∀ t ∈ treeY, s2 f ≠ t f := by
  unfold EvilTree.case2_helper
  rw [List.mem_filterMap]
  constructor
  · rintro ⟨a, ha, hg⟩
    by_cases hc1 : (s1 a != treeM a) = true
    · rw [if_pos hc1] at hg; simp at hg
    rw [if_neg hc1] at hg
    by_cases hc2 : (treeY.any (fun t => s2 a == t a)) = true
    · rw [if_pos hc2] at hg; simp at hg
    rw [if_neg hc2] at hg
    have hp := Option.some.inj hg
    have haf : a = f := congrArg Prod.fst hp
    have hr : cause = r := congrArg Prod.snd hp
    subst haf
    refine ⟨ha, hr.symm, ?_, ?_⟩
    · by_contra hne
      exact hc1 (bne_iff_ne.mpr hne)
    · intro t ht heq
      refine hc2 ?_
      rw [List.any_eq_true]
      exact ⟨t, ht, beq_iff_eq.mpr heq⟩
  · rintro ⟨hf, hr, hs1, hs2⟩
    refine ⟨f, hf, ?_⟩
    dsimp only
    have hb1 : (s1 f != treeM f) = false := by
      cases hc : (s1 f != treeM f)
      · rfl
      · exact absurd hs1 (bne_iff_ne.mp hc)
    have hb2 : (treeY.any (fun t => s2 f == t f)) = false := by
      cases hc : (treeY.any (fun t => s2 f == t f))
      · rfl
      · exfalso
        rw [List.any_eq_true] at hc
        obtain ⟨t, ht, hbeq⟩ := hc
        exact hs2 t ht (beq_iff_eq.mp (show (s2 f == t f) = true from hbeq))
    rw [if_neg (by simp [hb1]), if_neg (by simp [hb2]), hr]

theorem mem_files_changed_rest (M A B : EvilTree.Listing) (bases : List EvilTree.Listing)
    (f : String) :
    f ∈ EvilTree.files_changed_rest M A B bases ↔
      f ∈ EvilTree.files_changed M A B ∧
      f ∉ (EvilTree.case1_suspects M A B bases).map Prod.fst := by
  unfold EvilTree.files_changed_rest
  rw [List.mem_filter]
  constructor
  · rintro ⟨h1, h2⟩
    refine ⟨h1, fun hmem => ?_⟩
    have hc : ((EvilTree.case1_suspects M A B bases).map Prod.fst).contains f = true :=
      List.elem_iff.mpr hmem
    have h2b : (!((EvilTree.case1_suspects M A B bases).map Prod.fst).contains f) = true := h2
    rw [hc] at h2b
    cases h2b
  · rintro ⟨h1, h2⟩
    refine ⟨h1, ?_⟩
    show (!((EvilTree.case1_suspects M A B bases).map Prod.fst).contains f) = true
    cases hc : ((EvilTree.case1_suspects M A B bases).map Prod.fst).contains f
    · rfl
    · exact absurd (List.elem_iff.mp hc) h2

theorem mem_core_iff (M A B : EvilTree.Listing) (bases : List EvilTree.Listing)
    (f r : String) :
    (f, r) ∈ EvilTree.detectEvilnessCore M A B bases ↔
      (f, r) ∈ EvilTree.case1_suspects M A B bases ∨
      (f, r) ∈ EvilTree.case2_helper (EvilTree.treeGet M) (EvilTree.treeGet A)
        (EvilTree.treeGet B) (bases.map EvilTree.treeGet) EvilTree.modified2took1
        (EvilTree.files_changed_rest M A B bases) ∨
      (f, r) ∈ EvilTree.case2_helper (EvilTree.treeGet M) (EvilTree.treeGet B)
        (EvilTree.treeGet A) (bases.map EvilTree.treeGet) EvilTree.modified1took2
        (EvilTree.files_changed_rest M A B bases) := by
  simp only [EvilTree.detectEvilnessCore, EvilTree.sortPairs]
  rw [List.mem_mergeSort, List.mem_append, List.mem_append, or_assoc]

/-- C1: for a changed path and a non-empty base set, the classifier emits the
took-side-1 case-(1) suspect exactly when both sides diverge from every base
and the merge equals side 1, the took-side-2 suspect exactly when both sides
diverge from every base, the merge differs from side 1 and equals side 2; and
one base matching side 1's hash suppresses both case-(1) suspects. -/
theorem case1_spec (M A B : EvilTree.Listing) (bases : List EvilTree.Listing)
    (S : List (String × String)) (f : String)
    (hok : EvilTree.detect_evilness M A B bases = Except.ok S)
    (hf : f ∈ EvilTree.files_changed M A B) :
    (((f, EvilTree.tookSide1) ∈ S) ↔
      ((∀ Y ∈ bases, EvilTree.treeGet A f ≠ EvilTree.treeGet Y f) ∧
       (∀ Y ∈ bases, EvilTree.treeGet B f ≠ EvilTree.treeGet Y f) ∧
       EvilTree.treeGet M f = EvilTree.treeGet A f)) ∧
    (((f, EvilTree.tookSide2) ∈ S) ↔
      ((∀ Y ∈ bases, EvilTree.treeGet A f ≠ EvilTree.treeGet Y f) ∧
       (∀ Y ∈ bases, EvilTree.treeGet B f ≠ EvilTree.treeGet Y f) ∧
       EvilTree.treeGet M f ≠ EvilTree.treeGet A f ∧
       EvilTree.treeGet M f = EvilTree.treeGet B f)) ∧
    ((∃ Y ∈ bases, EvilTree.treeGet Y f = EvilTree.treeGet A f) →
      ((f, EvilTree.tookSide1) ∉ S ∧ (f, EvilTree.tookSide2) ∉ S)) := by
  have hS : S = EvilTree.detectEvilnessCore M A B bases := by
    cases bases with
    | nil => simp [EvilTree.detect_evilness] at hok
    | cons Y Ys => simpa [EvilTree.detect_evilness] using hok.symm
  subst hS
  have iff1 : (((f, EvilTree.tookSide1) ∈ EvilTree.detectEvilnessCore M A B bases) ↔
      ((∀ Y ∈ bases, EvilTree.treeGet A f ≠ EvilTree.treeGet Y f) ∧
       (∀ Y ∈ bases, EvilTree.treeGet B f ≠ EvilTree.treeGet Y f) ∧
       EvilTree.treeGet M f = EvilTree.treeGet A f)) := by
    rw [mem_core_iff, mem_case1_iff, mem_case2_iff, mem_case2_iff]
    constructor
    · rintro (⟨_, hA, hB, hcase⟩ | ⟨_, hr, _⟩ | ⟨_, hr, _⟩)
      · rcases hcase with ⟨_, hMA⟩ | ⟨hr, _⟩
        · exact ⟨hA, hB, hMA⟩
        · exact absurd hr (by decide)
      · exact absurd hr (by decide)
      · exact absurd hr (by decide)
    · rintro ⟨hA, hB, hMA⟩
      exact Or.inl ⟨hf, hA, hB, Or.inl ⟨rfl, hMA⟩⟩
  have iff2 : (((f, EvilTree.tookSide2) ∈ EvilTree.detectEvilnessCore M A B bases) ↔
      ((∀ Y ∈ bases, EvilTree.treeGet A f ≠ EvilTree.treeGet Y f) ∧
       (∀ Y ∈ bases, EvilTree.treeGet B f ≠ EvilTree.treeGet Y f) ∧
       EvilTree.treeGet M f ≠ EvilTree.treeGet A f ∧
       EvilTree.treeGet M f = EvilTree.treeGet B f)) := by
    rw [mem_core_iff, mem_case1_iff, mem_case2_iff, mem_case2_iff]
    constructor
    · rintro (⟨_, hA, hB, hcase⟩ | ⟨_, hr, _⟩ | ⟨_, hr, _⟩)
      · rcases hcase with ⟨hr, _⟩ | ⟨_, hMA, hMB⟩
        · exact absurd hr (by decide)
        · exact ⟨hA, hB, hMA, hMB⟩
      · exact absurd hr (by decide)
      · exact absurd hr (by decide)
    · rintro ⟨hA, hB, hMA, hMB⟩
      exact Or.inl ⟨hf, hA, hB, Or.inr ⟨rfl, hMA, hMB⟩⟩
  refine ⟨iff1, iff2, ?_⟩
  rintro ⟨Y, hY, hYA⟩
  constructor
  · intro hmem
    exact (iff1.mp hmem).1 Y hY hYA.symm
  · intro hmem
    exact (iff2.mp hmem).1 Y hY hYA.symm

/-- Witness for C1: a base equal to side 1 suppresses both case-(1) suspects
for the changed path. -/
theorem case1_spec_witness :
    ("x", EvilTree.tookSide1) ∉
      EvilTree.detectEvilnessCore [("x", "aa")] [("x", "aa")] [("x", "bb")] [[("x", "aa")]] ∧
    ("x", EvilTree.tookSide2) ∉
      EvilTree.detectEvilnessCore [("x", "aa")] [("x", "aa")] [("x", "bb")] [[("x", "aa")]] :=
  (case1_spec [("x", "aa")] [("x", "aa")] [("x", "bb")] [[("x", "aa")]]
      (EvilTree.detectEvilnessCore [("x", "aa")] [("x", "aa")] [("x", "bb")] [[("x", "aa")]])
      "x" rfl (by decide)).2.2 ⟨[("x", "aa")], by decide, by decide⟩

/-- C2: for a changed path that received no case-(1) suspect (non-empty base
set), a case-(2) suspect is emitted exactly when one side's hash equals the
merge's and the other side diverges from every base, the reason naming the
diverged side as modified and the kept side as taken. -/
theorem case2_spec (M A B : EvilTree.Listing) (bases : List EvilTree.Listing)
    (S : List (String × String)) (f : String)
    (hok : EvilTree.detect_evilness M A B bases = Except.ok S)
    (hf : f ∈ EvilTree.files_changed M A B)
    (hnc : f ∉ (EvilTree.case1_suspects M A B bases).map Prod.fst) :
    (((f, EvilTree.modified2took1) ∈ S) ↔
      (EvilTree.treeGet A f = EvilTree.treeGet M f ∧
       ∀ Y ∈ bases, EvilTree.treeGet B f ≠ EvilTree.treeGet Y f)) ∧
    (((f, EvilTree.modified1took2) ∈ S) ↔
      (EvilTree.treeGet B f = EvilTree.treeGet M f ∧
       ∀ Y ∈ bases, EvilTree.treeGet A f ≠ EvilTree.treeGet Y f)) := by
  have hS : S = EvilTree.detectEvilnessCore M A B bases := by
    cases bases with
    | nil => simp [EvilTree.detect_evilness] at hok
    | cons Y Ys => simpa [EvilTree.detect_evilness] using hok.symm
  subst hS
  constructor
  · rw [mem_core_iff, mem_case1_iff, mem_case2_iff, mem_case2_iff]
    constructor
    · rintro (⟨_, _, _, hcase⟩ | ⟨_, _, hs1, hs2⟩ | ⟨_, hr, _⟩)
      · rcases hcase with ⟨hr, _⟩ | ⟨hr, _⟩ <;> exact absurd hr (by decide)
      · refine ⟨hs1, fun Y hY => ?_⟩
        exact hs2 (EvilTree.treeGet Y) (List.mem_map_of_mem _ hY)
      · exact absurd hr (by decide)
    · rintro ⟨hAM, hB⟩
      refine Or.inr (Or.inl
        ⟨(mem_files_changed_rest M A B bases f).mpr ⟨hf, hnc⟩, rfl, hAM, ?_⟩)
      intro t ht
      rw [List.mem_map] at ht
      obtain ⟨Y, hY, hty⟩ := ht
      rw [← hty]
      exact hB Y hY
  · rw [mem_core_iff, mem_case1_iff, mem_case2_iff, mem_case2_iff]
    constructor
    · rintro (⟨_, _, _, hcase⟩ | ⟨_, hr, _⟩ | ⟨_, _, hs1, hs2⟩)
      · rcases hcase with ⟨hr, _⟩ | ⟨hr, _⟩ <;> exact absurd hr (by decide)
      · exact absurd hr (by decide)
      · refine ⟨hs1, fun Y hY => ?_⟩
        exact hs2 (EvilTree.treeGet Y) (List.mem_map_of_mem _ hY)
    · rintro ⟨hBM, hA⟩
      refine Or.inr (Or.inr
        ⟨(mem_files_changed_rest M A B bases f).mpr ⟨hf, hnc⟩, rfl, hBM, ?_⟩)
      intro t ht
      rw [List.mem_map] at ht
      obtain ⟨Y, hY, hty⟩ := ht
      rw [← hty]
      exact hA Y hY

/-- Witness for C2: side B kept verbatim while A diverged from the single base
yields the modified-in-1-took-2 suspect. -/
theorem case2_spec_witness :
    ("x", EvilTree.modified1took2) ∈
      EvilTree.detectEvilnessCore [("x", "yy")] [("x", "aa")] [("x", "yy")] [[("x", "yy")]] :=
  ((case2_spec [("x", "yy")] [("x", "aa")] [("x", "yy")] [[("x", "yy")]]
      (EvilTree.detectEvilnessCore [("x", "yy")] [("x", "aa")] [("x", "yy")] [[("x", "yy")]])
      "x" rfl (by decide) (by decide)).2).mpr ⟨by decide, by decide⟩
